import Mathlib

/-!
Verification of the octet-buffer and RFC 1035 record-data codec layer.

The builder model covers the two builder families of the source: the
fixed-capacity arrays generated by the octets_array macro (cap = some n)
and the unbounded heap buffers such as Vec of u8 (cap = none). The
visible state of a builder is the list of its first len bytes; bytes are
modelled as natural numbers below 256.
-/

namespace DomainCore

/-- ShortBuf error: an attempt was made to go beyond the end of a buffer. -/
inductive ShortBuf where
  | mk
deriving DecidableEq

/-- PushError of the character-string builders. -/
inductive PushError where
  | mk
deriving DecidableEq

instance {ε α : Type} [DecidableEq ε] [DecidableEq α] : DecidableEq (Except ε α) := fun x y =>
  match x, y with
  | Except.ok a, Except.ok b =>
      if h : a = b then isTrue (by rw [h])
      else isFalse (by intro hc; cases hc; exact h rfl)
  | Except.ok _, Except.error _ => isFalse (by intro hc; cases hc)
  | Except.error _, Except.ok _ => isFalse (by intro hc; cases hc)
  | Except.error e, Except.error f =>
      if h : e = f then isTrue (by rw [h])
      else isFalse (by intro hc; cases hc; exact h rfl)

/-- An octets builder: optional capacity bound plus the visible bytes. -/
structure Builder where
  cap : Option Nat
  data : List Nat
deriving DecidableEq

/-- Builder length, as OctetsBuilder len returns the visible length. -/
def Builder.len (b : Builder) : Nat :=
  b.data.length

/-- Embedding of append_slice: the fixed arrays check
slice.len greater than cap minus len and fail with ShortBuf, the
unbounded builders always extend. All-or-nothing by construction, as in
the source, where the error branch performs no mutation. -/
def Builder.append_slice (b : Builder) (s : List Nat) : Except ShortBuf Builder :=
  match b.cap with
  | some n =>
      if s.length > n - b.data.length then Except.error ShortBuf.mk
      else Except.ok ⟨some n, b.data ++ s⟩
  | none => Except.ok ⟨none, b.data ++ s⟩

/-- Embedding of truncate: sets the length if it shrinks, no-op otherwise. -/
def Builder.truncate (b : Builder) (l : Nat) : Builder :=
  if l < b.data.length then ⟨b.cap, b.data.take l⟩ else b

/-- A sequence of sub-writes, each an append_slice call; runs until the
first failure and reports the state reached together with a success
flag, mirroring a Rust closure that mutates the builder in place. -/
def run_writes : Builder → List (List Nat) → Builder × Bool
  | b, [] => (b, true)
  | b, s :: rest =>
      match Builder.append_slice b s with
      | Except.ok b2 => run_writes b2 rest
      | Except.error _ => (b, false)

/-- Embedding of OctetsBuilder append_all: remember the length, run the
sub-writes, and on failure truncate back and return ShortBuf. -/
def Builder.append_all (b : Builder) (ws : List (List Nat)) : Builder × Option ShortBuf :=
  match run_writes b ws with
  | (b2, true) => (b2, none)
  | (b2, false) => (Builder.truncate b2 b.data.length, some ShortBuf.mk)

theorem append_slice_ok_eq (b : Builder) (s : List Nat) (b2 : Builder)
    (h : Builder.append_slice b s = Except.ok b2) : b2 = ⟨b.cap, b.data ++ s⟩ := by
  unfold Builder.append_slice at h
  cases hc : b.cap with
  | some n =>
      rw [hc] at h
      by_cases hlen : s.length > n - b.data.length
      · simp [hlen] at h
      · simp [hlen] at h
        exact h.symm
  | none =>
      rw [hc] at h
      simp at h
      exact h.symm

theorem run_writes_extends (ws : List (List Nat)) (b : Builder) :
    ∃ t, (run_writes b ws).1.cap = b.cap ∧ (run_writes b ws).1.data = b.data ++ t := by
  induction ws generalizing b with
  | nil => exact ⟨[], rfl, by simp [run_writes]⟩
  | cons s rest ih =>
      simp only [run_writes]
      cases hap : Builder.append_slice b s with
      | ok b2 =>
          obtain ⟨t, hc, hd⟩ := ih b2
          have hb2 := append_slice_ok_eq b s b2 hap
          subst hb2
          refine ⟨s ++ t, ?_, ?_⟩
          · simpa using hc
          · simpa [List.append_assoc] using hd
      | error e => exact ⟨[], rfl, by simp⟩

theorem get?_set_self (l : List Nat) (i : Nat) (a : Nat) (h : i < l.length) :
    (l.set i a).get? i = some a := by
  induction l generalizing i with
  | nil => simp at h
  | cons x xs ih =>
      cases i with
      | zero => simp
      | succ j =>
          simp only [List.set, List.get?]
          exact ih j (by simpa using h)

theorem get?_set_ne (l : List Nat) (i j : Nat) (a : Nat) (h : i ≠ j) :
    (l.set i a).get? j = l.get? j := by
  induction l generalizing i j with
  | nil => simp
  | cons x xs ih =>
      cases i with
      | zero =>
          cases j with
          | zero => exact absurd rfl h
          | succ k => simp
      | succ i2 =>
          cases j with
          | zero => simp
          | succ k =>
              simp only [List.set, List.get?]
              exact ih i2 k (by omega)

/-- Truncating an extended builder back to the original length restores
the original builder. -/
theorem truncate_restore (b b2 : Builder) (t : List Nat)
    (hcap : b2.cap = b.cap) (hdata : b2.data = b.data ++ t) :
    Builder.truncate b2 b.data.length = b := by
  unfold Builder.truncate
  cases t with
  | nil =>
      have hb : b2 = b := by
        cases b2 with
        | mk c2 d2 =>
            cases b with
            | mk c d =>
                simp only at hcap hdata
                simp [hcap, hdata]
      subst hb
      simp
  | cons x xs =>
      have hlt : b.data.length < b2.data.length := by rw [hdata]; simp
      rw [if_pos hlt, hdata, List.take_left]
      cases b with
      | mk c d =>
          simp only at hcap
          simp [hcap]

/-- Claim C1: if any sub-write of an append_all sequence fails, the
builder is truncated back to the length recorded before the sequence
started and ShortBuf is returned, so the visible contents after the
failed call equal those before it. -/
theorem append_all_rollback (b : Builder) (ws : List (List Nat))
    (h : (run_writes b ws).2 = false) :
    Builder.append_all b ws = (b, some ShortBuf.mk) := by
  obtain ⟨t, hcap, hdata⟩ := run_writes_extends ws b
  unfold Builder.append_all
  cases hrw : run_writes b ws with
  | mk b2 flag =>
      rw [hrw] at h hcap hdata
      simp only at h hcap hdata
      subst h
      show (Builder.truncate b2 b.data.length, some ShortBuf.mk) = (b, some ShortBuf.mk)
      rw [truncate_restore b b2 t hcap hdata]

/-- Witness for C1 at a concrete input: a capacity-1 array and a
single 2-byte sub-write. -/
theorem append_all_rollback_witness :
    Builder.append_all ⟨some 1, []⟩ [[2, 3]] = (⟨some 1, []⟩, some ShortBuf.mk) :=
  append_all_rollback ⟨some 1, []⟩ [[2, 3]] (by decide)

/-- Embedding of the two-byte in-place write performed through as_mut
in len_prefixed. -/
def Builder.write2 (b : Builder) (i hi lo : Nat) : Builder :=
  ⟨b.cap, (b.data.set i hi).set (i + 1) lo⟩

/-- Embedding of OctetsBuilder len_prefixed: append two zero bytes, run
the sub-writes, then either fail rolling back to the initial length or
overwrite the two reserved bytes with the big-endian 16-bit length of
what the sub-writes produced. -/
def Builder.len_prefixed (b : Builder) (ws : List (List Nat)) : Builder × Option ShortBuf :=
  match Builder.append_slice b [0, 0] with
  | Except.error _ => (b, some ShortBuf.mk)
  | Except.ok b1 =>
      match run_writes b1 ws with
      | (b2, false) => (Builder.truncate b2 b.data.length, some ShortBuf.mk)
      | (b2, true) =>
          let l := b2.data.length - b.data.length - 2
          if l > 65535 then (Builder.truncate b2 b.data.length, some ShortBuf.mk)
          else (Builder.write2 b2 b.data.length (l / 256) (l % 256), none)

/-- Claim C2: len_prefixed reserves two bytes and runs the sub-writes;
every failure, whether of the reservation, of a sub-write, or because
more than 65535 bytes were produced, yields ShortBuf with the builder
restored to its pre-call state; with exactly 65535 produced bytes the
call succeeds and the two reserved bytes hold the big-endian value
0xFFFF, the stored length excluding the two-byte field itself. -/
theorem len_prefixed_bound (b : Builder) (ws : List (List Nat)) :
    (∀ e, (Builder.len_prefixed b ws).2 = some e → (Builder.len_prefixed b ws).1 = b) ∧
    (∀ b1 b2, Builder.append_slice b [0, 0] = Except.ok b1 →
      run_writes b1 ws = (b2, true) →
      (b2.data.length - b.data.length - 2 > 65535 →
        Builder.len_prefixed b ws = (b, some ShortBuf.mk)) ∧
      (b2.data.length - b.data.length - 2 = 65535 →
        (Builder.len_prefixed b ws).2 = none ∧
        (Builder.len_prefixed b ws).1.data.get? b.data.length = some 255 ∧
        (Builder.len_prefixed b ws).1.data.get? (b.data.length + 1) = some 255 ∧
        (Builder.len_prefixed b ws).1.data.length = b.data.length + 2 + 65535)) := by
  constructor
  · intro e he
    unfold Builder.len_prefixed at he ⊢
    cases hap : Builder.append_slice b [0, 0] with
    | error e2 => rfl
    | ok b1 =>
        rw [hap] at he
        dsimp only at he ⊢
        have hb1 := append_slice_ok_eq b [0, 0] b1 hap
        obtain ⟨t, hcap, hdata⟩ := run_writes_extends ws b1
        cases hrw : run_writes b1 ws with
        | mk b2 flag =>
            rw [hrw] at he hcap hdata
            dsimp only at he hcap hdata ⊢
            have hext : b2.cap = b.cap ∧ b2.data = b.data ++ ([0, 0] ++ t) := by
              subst hb1
              exact ⟨hcap, by simpa [List.append_assoc] using hdata⟩
            cases flag with
            | false =>
                show (Builder.truncate b2 b.data.length, some ShortBuf.mk).1 = b
                exact truncate_restore b b2 ([0, 0] ++ t) hext.1 hext.2
            | true =>
                dsimp only at he ⊢
                by_cases hl : b2.data.length - b.data.length - 2 > 65535
                · rw [if_pos hl] at he ⊢
                  exact truncate_restore b b2 ([0, 0] ++ t) hext.1 hext.2
                · rw [if_neg hl] at he
                  simp at he
  · intro b1 b2 hap hrw
    have hb1 := append_slice_ok_eq b [0, 0] b1 hap
    obtain ⟨t, hcap, hdata⟩ := run_writes_extends ws b1
    rw [hrw] at hcap hdata
    simp only at hcap hdata
    have hcap2 : b2.cap = b.cap := by rw [hcap, hb1]
    have hdata2 : b2.data = b.data ++ ([0, 0] ++ t) := by
      rw [hdata, hb1]
      simp [List.append_assoc]
    have hlen2 : b2.data.length = b.data.length + 2 + t.length := by
      rw [hdata2]
      simp
      omega
    constructor
    · intro hbig
      unfold Builder.len_prefixed
      rw [hap]
      dsimp only
      rw [hrw]
      dsimp only
      rw [if_pos hbig]
      rw [truncate_restore b b2 ([0, 0] ++ t) hcap2 hdata2]
    · intro hexact
      have hts : t.length = 65535 := by omega
      unfold Builder.len_prefixed
      rw [hap]
      dsimp only
      rw [hrw]
      dsimp only
      rw [if_neg (by omega)]
      rw [hexact]
      refine ⟨rfl, ?_, ?_, ?_⟩
      · show ((b2.data.set b.data.length (65535 / 256)).set (b.data.length + 1) (65535 % 256)).get?
            b.data.length = some 255
        rw [get?_set_ne _ _ _ _ (by omega)]
        have : (65535 : Nat) / 256 = 255 := by norm_num
        rw [this]
        exact get?_set_self _ _ _ (by omega)
      · show ((b2.data.set b.data.length (65535 / 256)).set (b.data.length + 1) (65535 % 256)).get?
            (b.data.length + 1) = some 255
        have : (65535 : Nat) % 256 = 255 := by norm_num
        rw [this]
        exact get?_set_self _ _ _ (by simp; omega)
      · show ((b2.data.set b.data.length (65535 / 256)).set (b.data.length + 1) (65535 % 256)).length
            = b.data.length + 2 + 65535
        simp
        omega

/-- Witness for C2 at a concrete input: reserving two bytes in a
capacity-1 array fails and leaves the builder untouched. -/
theorem len_prefixed_bound_witness :
    (Builder.len_prefixed ⟨some 1, []⟩ []).1 = ⟨some 1, []⟩ :=
  (len_prefixed_bound ⟨some 1, []⟩ []).1 ShortBuf.mk (by decide)

/-- Embedding of the TryFrom implementation of the octets_array macro:
a slice longer than the capacity is rejected with ShortBuf, otherwise
it is copied in and becomes the used prefix. -/
def octets_try_from (n : Nat) (src : List Nat) : Except ShortBuf Builder :=
  if src.length > n then Except.error ShortBuf.mk else Except.ok ⟨some n, src⟩

/-- Claim C7: a fixed-capacity array keeps its used length between 0
and the capacity: construction from a slice of length cap plus one
fails with ShortBuf while length cap succeeds with full length, an
append beyond the remaining room fails with ShortBuf leaving the state
unchanged, a successful append stays within the capacity, and truncate
never increases the length. -/
theorem octets_array_capacity (n : Nat) (src : List Nat) (b b2 : Builder)
    (s : List Nat) (l : Nat) :
    (src.length = n + 1 → octets_try_from n src = Except.error ShortBuf.mk) ∧
    (src.length = n →
      octets_try_from n src = Except.ok ⟨some n, src⟩ ∧ Builder.len ⟨some n, src⟩ = n) ∧
    (b.cap = some n → s.length > n - b.data.length →
      Builder.append_slice b s = Except.error ShortBuf.mk) ∧
    (b.cap = some n → b.data.length ≤ n → Builder.append_slice b s = Except.ok b2 →
      b2.data.length ≤ n) ∧
    (Builder.truncate b l).data.length ≤ b.data.length := by
  refine ⟨?_, ?_, ?_, ?_, ?_⟩
  · intro h
    unfold octets_try_from
    rw [if_pos (by omega)]
  · intro h
    unfold octets_try_from
    rw [if_neg (by omega)]
    exact ⟨rfl, by simpa [Builder.len] using h⟩
  · intro hc hlen
    unfold Builder.append_slice
    rw [hc]
    dsimp only
    rw [if_pos hlen]
  · intro hc hinv hok
    unfold Builder.append_slice at hok
    rw [hc] at hok
    dsimp only at hok
    by_cases hlen : s.length > n - b.data.length
    · rw [if_pos hlen] at hok
      cases hok
    · rw [if_neg hlen] at hok
      have : b2 = ⟨some n, b.data ++ s⟩ := by
        cases hok
        rfl
      rw [this]
      simp
      omega
  · unfold Builder.truncate
    by_cases hl : l < b.data.length
    · rw [if_pos hl]
      simp
    · rw [if_neg hl]

/-- Witness for C7 at concrete inputs: capacity 2 with a 3-byte slice
fails, a 2-byte slice fills it exactly, a 2-byte append onto one used
byte fails, and truncation of a 1-byte state never grows it. -/
theorem octets_array_capacity_witness :
    octets_try_from 2 [1, 2, 3] = Except.error ShortBuf.mk ∧
    octets_try_from 2 [5, 6] = Except.ok ⟨some 2, [5, 6]⟩ ∧
    Builder.append_slice ⟨some 2, [9]⟩ [7, 7] = Except.error ShortBuf.mk := by
  refine ⟨?_, ?_, ?_⟩
  · exact (octets_array_capacity 2 [1, 2, 3] ⟨some 2, [9]⟩ ⟨some 2, [9]⟩ [7, 7] 0).1 (by decide)
  · exact ((octets_array_capacity 2 [5, 6] ⟨some 2, [9]⟩ ⟨some 2, [9]⟩ [7, 7] 0).2.1 (by decide)).1
  · exact (octets_array_capacity 2 [5, 6] ⟨some 2, [9]⟩ ⟨some 2, [9]⟩ [7, 7] 0).2.2.1 rfl (by decide)

/-- Chunks of at most 255 bytes, as slice chunks of 255 in the text
builder; the fuel argument only bounds the recursion and any fuel at
least the list length is exact. -/
def chunks255_fuel : Nat → List Nat → List (List Nat)
  | 0, _ => []
  | _, [] => []
  | fuel + 1, l => l.take 255 :: chunks255_fuel fuel (l.drop 255)

def chunks255 (l : List Nat) : List (List Nat) :=
  chunks255_fuel l.length l

/-- The TXT builder state: the underlying octets builder plus the index
of the length byte of the currently open character string, if any. -/
structure TxtBuilder where
  builder : Builder
  start : Option Nat
deriving DecidableEq

def TxtBuilder.new (cap : Option Nat) : TxtBuilder :=
  ⟨⟨cap, []⟩, none⟩

/-- One iteration of the chunk loop of TxtBuilder append_slice: check
the 0xFFFF total bound, record the new open-string start, then append
the length byte and the chunk. -/
def txt_chunk_step (tb : TxtBuilder) (chunk : List Nat) : Except PushError TxtBuilder :=
  if tb.builder.data.length ≥ 0xFFFF then Except.error PushError.mk
  else
    let st := if chunk.length = 255 then none else some tb.builder.data.length
    match Builder.append_slice tb.builder [chunk.length] with
    | Except.error _ => Except.error PushError.mk
    | Except.ok b1 =>
        match Builder.append_slice b1 chunk with
        | Except.error _ => Except.error PushError.mk
        | Except.ok b2 => Except.ok ⟨b2, st⟩

def txt_chunks_fold : TxtBuilder → List (List Nat) → Except PushError TxtBuilder
  | tb, [] => Except.ok tb
  | tb, c :: cs =>
      match txt_chunk_step tb c with
      | Except.error e => Except.error e
      | Except.ok tb2 => txt_chunks_fold tb2 cs

/-- Embedding of TxtBuilder append_slice: if a character string is
open, fill it first, sealing its length byte at 255 when it fills up
completely; then write the remainder in chunks of at most 255 bytes,
each preceded by its length byte. -/
def TxtBuilder.append_slice (tb : TxtBuilder) (slice : List Nat) : Except PushError TxtBuilder :=
  match tb.start with
  | none => txt_chunks_fold tb (chunks255 slice)
  | some st =>
      let left := 255 - (tb.builder.data.length - (st + 1))
      if slice.length < left then
        match Builder.append_slice tb.builder slice with
        | Except.error _ => Except.error PushError.mk
        | Except.ok b1 => Except.ok ⟨b1, tb.start⟩
      else
        match Builder.append_slice tb.builder (slice.take left) with
        | Except.error _ => Except.error PushError.mk
        | Except.ok b1 =>
            txt_chunks_fold ⟨⟨b1.cap, b1.data.set st 255⟩, tb.start⟩
              (chunks255 (slice.drop left))

/-- Embedding of TxtBuilder finish: seal a still-open trailing string
by overwriting its length byte with 255 minus the number of payload
bytes written after it, exactly as the source computes it, then return
the raw octets of the TXT value. -/
def TxtBuilder.finish (tb : TxtBuilder) : List Nat :=
  match tb.start with
  | none => tb.builder.data
  | some st =>
      tb.builder.data.set st ((255 - (tb.builder.data.length - (st + 1))) % 256)

/-- Embedding of Txt from_slice over an unbounded builder. -/
def Txt.from_slice (text : List Nat) : Except PushError (List Nat) :=
  match TxtBuilder.append_slice (TxtBuilder.new none) text with
  | Except.error e => Except.error e
  | Except.ok tb => Except.ok (TxtBuilder.finish tb)

/-- The character strings of a TXT value, each a declared length byte
followed by that many payload bytes, mirroring the TxtIter walk over
the stored octets. -/
def txt_segments_fuel : Nat → List Nat → List (List Nat)
  | 0, _ => []
  | _, [] => []
  | fuel + 1, n :: rest => rest.take n :: txt_segments_fuel fuel (rest.drop n)

def txt_segments (o : List Nat) : List (List Nat) :=
  txt_segments_fuel o.length o

/-- The flattened payload bytes of a TXT value: the byte stream the
flat_map over the character-string iterator produces. -/
def txt_flat (o : List Nat) : List Nat :=
  (txt_segments o).flatten

/-- Embedding of PartialEq for Txt: the two flattened payload streams
are compared element by element. -/
def txt_eq (a b : List Nat) : Bool :=
  txt_flat a == txt_flat b

/-- Lexicographic byte comparison, as the iterator cmp over u8 items. -/
def cmp_bytes : List Nat → List Nat → Ordering
  | [], [] => Ordering.eq
  | [], _ :: _ => Ordering.lt
  | _ :: _, [] => Ordering.gt
  | x :: xs, y :: ys =>
      if x < y then Ordering.lt
      else if y < x then Ordering.gt
      else cmp_bytes xs ys

/-- Embedding of Ord and CanonicalOrd for Txt: both compare the
flattened payload streams lexicographically. -/
def txt_cmp (a b : List Nat) : Ordering :=
  cmp_bytes (txt_flat a) (txt_flat b)

/-- Embedding of Hash for Txt: the bytes fed to the hasher, in order,
are exactly the flattened payload bytes. -/
def txt_hash_stream (o : List Nat) : List Nat :=
  txt_flat o

/-- A TXT value is well formed when every declared character-string
length fits in the remaining bytes; on a value violating this the
source iterator hits a failing CharStr parse under an unwrap. -/
def txt_well_formed_fuel : Nat → List Nat → Bool
  | 0, l => l.isEmpty
  | _, [] => true
  | fuel + 1, n :: rest => decide (n ≤ rest.length) && txt_well_formed_fuel fuel (rest.drop n)

def txt_well_formed (o : List Nat) : Bool :=
  txt_well_formed_fuel o.length o

/-- Embedding of Txt as_flat_slice. The outer none marks the only
execution where the source indexes the first byte of an empty octet
sequence, which is an out-of-bounds panic. -/
def Txt.as_flat_slice : List Nat → Option (Option (List Nat))
  | [] => none
  | b :: rest => some (if b = rest.length then some rest else none)

/-- Embedding of Wks serves: fetch byte port over 8 and test whether
shifting it right by port mod 8 leaves a positive value; a missing
byte means not served. -/
def Wks.serves (bitmap : List Nat) (port : Nat) : Bool :=
  match bitmap.get? (port / 8) with
  | some x => decide (x >>> (port % 8) > 0)
  | none => false

/-- Embedding of the WksIter next loop over the octet and bit cursor;
note the source returns a served port without advancing the cursor.
The fuel only bounds the loop. -/
def WksIter.next_fuel : Nat → List Nat → Nat → Nat → Option (Nat × Nat × Nat)
  | 0, _, _, _ => none
  | fuel + 1, bitmap, octet, bit =>
      if octet ≥ bitmap.length then none
      else if (bitmap.getD octet 0) >>> bit > 0 then some (octet * 8 + bit, octet, bit)
      else if bit == 7 then WksIter.next_fuel fuel bitmap (octet + 1) 0
      else WksIter.next_fuel fuel bitmap octet (bit + 1)

def WksIter.next (bitmap : List Nat) (octet bit : Nat) : Option (Nat × Nat × Nat) :=
  WksIter.next_fuel (bitmap.length * 8 + 8) bitmap octet bit

/-- The grow loop of WksBuilder add_service: append single bytes until
the bitmap reaches the target length. The appended byte is 48, the
ASCII digit zero, as the source appends the byte string b zero. -/
def wks_pad_fuel : Nat → Builder → Nat → Except ShortBuf Builder
  | 0, b, _ => Except.ok b
  | fuel + 1, b, target =>
      if b.data.length < target then
        match Builder.append_slice b [48] with
        | Except.error e => Except.error e
        | Except.ok b2 => wks_pad_fuel fuel b2 target
      else Except.ok b

/-- Embedding of WksBuilder add_service: byte index service shifted
right by 2, bit mask 1 shifted left by service mod 4, grow the bitmap,
then or the mask into the byte. -/
def WksBuilder.add_service (b : Builder) (service : Nat) : Except ShortBuf Builder :=
  let octet := service >>> 2
  let bit := 1 <<< (service % 4)
  match wks_pad_fuel (octet + 1) b (octet + 1) with
  | Except.error e => Except.error e
  | Except.ok b2 => Except.ok ⟨b2.cap, b2.data.set octet ((b2.data.getD octet 0) ||| bit)⟩

/-- The bitmap built by adding services 80, 443 and 22 in that order to
an empty unbounded builder. -/
def wks_bitmap_ex : List Nat :=
  match WksBuilder.add_service ⟨none, []⟩ 80 with
  | Except.error _ => []
  | Except.ok b1 =>
      match WksBuilder.add_service b1 443 with
      | Except.error _ => []
      | Except.ok b2 =>
          match WksBuilder.add_service b2 22 with
          | Except.error _ => []
          | Except.ok b3 => b3.data

/-- Claim C4, failing input evaluated: after adding services 80, 443
and 22 the bitmap is 111 bytes padded with the ASCII digit zero, the
first iterator step yields port 0 without advancing its cursor, so the
iteration repeats port 0 forever instead of yielding 22, 80, 443, and
serves reports 22 as not served but 81 as served. -/
theorem wks_builder_iter_bug :
    wks_bitmap_ex.length = 111 ∧
    wks_bitmap_ex.get? 2 = some 48 ∧
    WksIter.next wks_bitmap_ex 0 0 = some (0, 0, 0) ∧
    Wks.serves wks_bitmap_ex 22 = false ∧
    Wks.serves wks_bitmap_ex 81 = true := by
  decide

/-- Claim C5, counterexample: with the single bitmap byte 128 the
source reports port 0 as served although bit 0 of that byte is clear,
so serves does not test exactly the bit port mod 8. -/
theorem wks_serves_bit_counterexample :
    Wks.serves [128] 0 = true ∧ Nat.testBit 128 0 = false := by
  decide

/-- Claim C5 amended: serves returns true exactly when the byte at
index port over 8 exists and has some bit at position port mod 8 or
above set, that is the byte shifted right by port mod 8 is positive;
for any port whose byte index lies beyond the stored bitmap it returns
false, never an error. -/
theorem wks_serves_amended (bm : List Nat) (port : Nat) :
    (Wks.serves bm port = true ↔
      ∃ x, bm.get? (port / 8) = some x ∧ 0 < x >>> (port % 8)) ∧
    (bm.length ≤ port / 8 → Wks.serves bm port = false) := by
  constructor
  · unfold Wks.serves
    cases hg : bm.get? (port / 8) with
    | some x => simp
    | none => simp
  · intro h
    unfold Wks.serves
    rw [List.get?_eq_none.mpr h]

/-- Witness for C5 amended at a concrete input: a one-byte bitmap
serves no port with byte index beyond it. -/
theorem wks_serves_amended_witness : Wks.serves [1] 9 = false :=
  (wks_serves_amended [1] 9).2 (by decide)

theorem cmp_bytes_eq_iff (x y : List Nat) : cmp_bytes x y = Ordering.eq ↔ x = y := by
  induction x generalizing y with
  | nil =>
      cases y with
      | nil => simp [cmp_bytes]
      | cons b bs => simp [cmp_bytes]
  | cons a as2 ih =>
      cases y with
      | nil => simp [cmp_bytes]
      | cons b bs =>
          unfold cmp_bytes
          by_cases hab : a < b
          · simp [hab]
            omega
          · rw [if_neg hab]
            by_cases hba : b < a
            · simp [hba]
              omega
            · rw [if_neg hba]
              have hab2 : a = b := by omega
              subst hab2
              simp [ih bs]

/-- Claim C6: equality, ordering and hashing of TXT values are
computed over the concatenated character-string payloads: two values
are equal exactly when their flattened payload streams are equal, the
order comparison is the identity comparison of the flattened streams,
equal values feed identical byte streams to the hasher, and two
differently segmented values with the same flattened content, whose
raw length-prefixed octets differ, compare equal. -/
theorem txt_flat_value_semantics (a b : List Nat) :
    (txt_eq a b = true ↔ txt_flat a = txt_flat b) ∧
    (txt_cmp a b = Ordering.eq ↔ txt_flat a = txt_flat b) ∧
    (txt_eq a b = true → txt_hash_stream a = txt_hash_stream b) ∧
    (txt_eq [1, 97, 1, 98] [2, 97, 98] = true ∧
      ([1, 97, 1, 98] : List Nat) ≠ [2, 97, 98]) := by
  refine ⟨?_, ?_, ?_, by decide, by decide⟩
  · unfold txt_eq
    exact beq_iff_eq
  · unfold txt_cmp
    exact cmp_bytes_eq_iff (txt_flat a) (txt_flat b)
  · intro h
    unfold txt_hash_stream
    unfold txt_eq at h
    exact eq_of_beq h

/-- Witness for C6 at concrete inputs: the two differently segmented
values hash over the same byte stream. -/
theorem txt_flat_value_semantics_witness :
    txt_hash_stream [1, 97, 1, 98] = txt_hash_stream [2, 97, 98] :=
  (txt_flat_value_semantics [1, 97, 1, 98] [2, 97, 98]).2.2.1 (by decide)

/-- The 600-byte input of the TXT round-trip scenario. -/
def txt600_input : List Nat :=
  List.replicate 600 97

/-- The TXT value built by feeding the 600-byte input to the text
builder and finishing it. -/
def txt600 : List Nat :=
  match Txt.from_slice txt600_input with
  | Except.ok o => o
  | Except.error _ => []

set_option maxRecDepth 100000 in
/-- Claim C3, failing input evaluated: feeding 600 bytes yields three
character strings whose first two length bytes are 255 as expected,
but finish overwrites the final length byte with 165, that is 255
minus the 90 payload bytes actually present, instead of 90; the value
is therefore malformed and iterating it cannot reproduce the input. -/
theorem txt_builder_finish_bug600 :
    txt600.length = 603 ∧
    txt600.get? 0 = some 255 ∧
    txt600.get? 256 = some 255 ∧
    txt600.get? 512 = some 165 ∧
    txt_well_formed txt600 = false := by
  decide

/-- Claim C10, counterexample: building a TXT value from the empty
slice succeeds and yields an empty octet sequence, on which
as_flat_slice indexes the first byte out of bounds, the panic marked
here by the outer none. -/
theorem txt_as_flat_slice_empty_counterexample :
    Txt.from_slice [] = Except.ok [] ∧ Txt.as_flat_slice [] = none := by
  decide

/-- Claim C10 amended: as_flat_slice is total and free of
out-of-bounds indexing for every TXT value whose octet sequence is
nonempty; on the empty octet sequence, which is constructible through
the public interface, the first-byte index is out of bounds. -/
theorem txt_as_flat_slice_amended (o : List Nat) (h : o ≠ []) :
    ∃ r, Txt.as_flat_slice o = some r := by
  cases o with
  | nil => exact absurd rfl h
  | cons b rest => exact ⟨_, rfl⟩

/-- Witness for C10 amended at a concrete nonempty value. -/
theorem txt_as_flat_slice_amended_witness :
    ∃ r, Txt.as_flat_slice [1, 97] = some r :=
  txt_as_flat_slice_amended [1, 97] (by decide)

/-- Modelled from the spec: the decode-side cursor abstraction, which
is outside the sources under review; a read-only octet sequence plus a
position. -/
structure Parser where
  octets : List Nat
  pos : Nat
deriving DecidableEq

/-- Modelled from the spec: advancing the cursor fails with the shared
short-buffer kind when fewer bytes remain than requested. -/
def Parser.advance (p : Parser) (n : Nat) : Except ShortBuf Parser :=
  if p.pos + n ≤ p.octets.length then Except.ok ⟨p.octets, p.pos + n⟩
  else Except.error ShortBuf.mk

/-- Error kinds consumed by the bounded-length parse implementations:
a field error of the external name module, the short-field and
trailing-data kinds, and the shared short-buffer kind. -/
inductive ParseErr where
  | fieldErr
  | shortField
  | trailingData
  | shortBuf
deriving DecidableEq

/-- Modelled from the spec: parsing an uncompressed wire-format domain
name, a sequence of length-prefixed labels ending in a zero byte; the
external name module owns this operation, the sources under review
only call it. The fuel merely bounds the recursion. -/
def Dname.parse_fuel : Nat → Parser → Except ParseErr Parser
  | 0, _ => Except.error ParseErr.shortBuf
  | fuel + 1, p =>
      match p.octets.get? p.pos with
      | none => Except.error ParseErr.shortBuf
      | some 0 => Except.ok ⟨p.octets, p.pos + 1⟩
      | some (n + 1) => Dname.parse_fuel fuel ⟨p.octets, p.pos + 1 + (n + 1)⟩

def Dname.parse (p : Parser) : Except ParseErr Parser :=
  Dname.parse_fuel (p.octets.length + 1) p

/-- Modelled from the spec: the field portion of the SOA parse, two
domain names followed by the serial and the four 32-bit intervals,
twenty bytes in all; only the final cursor position matters here. -/
def Soa.parse_fields (p : Parser) : Except ParseErr (Unit × Parser) :=
  match Dname.parse p with
  | Except.error e => Except.error e
  | Except.ok p1 =>
      match Dname.parse p1 with
      | Except.error e => Except.error e
      | Except.ok p2 =>
          match p2.advance 20 with
          | Except.error _ => Except.error ParseErr.shortBuf
          | Except.ok p3 => Except.ok ((), p3)

/-- Embedding of Soa parse_all: run the unbounded field parse on a
clone of the parser, then demand that the consumed length equal the
declared length exactly before advancing the original parser by it. -/
def Soa.parse_all {α : Type} (pf : Parser → Except ParseErr (α × Parser))
    (p : Parser) (len : Nat) : Except ParseErr (α × Parser) :=
  match pf p with
  | Except.error e => Except.error e
  | Except.ok (res, tmp) =>
      if tmp.pos - p.pos < len then Except.error ParseErr.trailingData
      else if tmp.pos - p.pos > len then Except.error ParseErr.shortField
      else
        match p.advance len with
        | Except.error _ => Except.error ParseErr.shortBuf
        | Except.ok p2 => Except.ok (res, p2)

/-- Claim C8: Soa parse_all fails with TrailingData when the fields
consume fewer bytes than the declared length, fails with ShortField
when they consume more, succeeds when they consume it exactly, and on
every success the parser advances by exactly the declared length. -/
theorem soa_parse_all_exact_length {α : Type} (pf : Parser → Except ParseErr (α × Parser))
    (p : Parser) (len : Nat) (res : α) (tmp : Parser)
    (hpf : pf p = Except.ok (res, tmp)) :
    (tmp.pos - p.pos < len → Soa.parse_all pf p len = Except.error ParseErr.trailingData) ∧
    (tmp.pos - p.pos > len → Soa.parse_all pf p len = Except.error ParseErr.shortField) ∧
    (tmp.pos - p.pos = len → p.pos ≤ tmp.pos → tmp.pos ≤ p.octets.length →
      Soa.parse_all pf p len = Except.ok (res, ⟨p.octets, p.pos + len⟩)) ∧
    (∀ r p2, Soa.parse_all pf p len = Except.ok (r, p2) →
      tmp.pos - p.pos = len ∧ p2.pos = p.pos + len ∧ p2.octets = p.octets) := by
  unfold Soa.parse_all
  rw [hpf]
  dsimp only
  refine ⟨?_, ?_, ?_, ?_⟩
  · intro h
    rw [if_pos h]
  · intro h
    rw [if_neg (by omega), if_pos h]
  · intro heq hle hbound
    rw [if_neg (by omega), if_neg (by omega)]
    unfold Parser.advance
    rw [if_pos (by omega)]
  · intro r p2 hok
    by_cases h1 : tmp.pos - p.pos < len
    · rw [if_pos h1] at hok
      cases hok
    · rw [if_neg h1] at hok
      by_cases h2 : tmp.pos - p.pos > len
      · rw [if_pos h2] at hok
        cases hok
      · rw [if_neg h2] at hok
        unfold Parser.advance at hok
        by_cases h3 : p.pos + len ≤ p.octets.length
        · rw [if_pos h3] at hok
          dsimp only at hok
          injection hok with hpair
          cases hpair
          exact ⟨by omega, rfl, rfl⟩
        · rw [if_neg h3] at hok
          cases hok

/-- A stub field parse that consumes exactly 22 bytes, used to witness
the bounded-length dispatch at a concrete input. -/
def soa_fields_stub (q : Parser) : Except ParseErr (Unit × Parser) :=
  match Parser.advance q 22 with
  | Except.error _ => Except.error ParseErr.shortBuf
  | Except.ok q2 => Except.ok ((), q2)

/-- Witness for C8 at a concrete input: 22 consumed bytes against a
declared length of 22 succeed and advance the parser by 22. -/
theorem soa_parse_all_exact_length_witness :
    Soa.parse_all soa_fields_stub ⟨List.replicate 22 0, 0⟩ 22 =
      Except.ok ((), ⟨List.replicate 22 0, 22⟩) :=
  (soa_parse_all_exact_length soa_fields_stub ⟨List.replicate 22 0, 0⟩ 22 ()
    ⟨List.replicate 22 0, 22⟩ (by decide)).2.2.1 (by decide) (by decide) (by decide)

theorem dname_parse_fuel_mono (fuel : Nat) :
    ∀ p q : Parser, Dname.parse_fuel fuel p = Except.ok q →
      p.pos < q.pos ∧ q.octets = p.octets := by
  induction fuel with
  | zero =>
      intro p q h
      simp [Dname.parse_fuel] at h
  | succ f ih =>
      intro p q h
      unfold Dname.parse_fuel at h
      cases hg : p.octets.get? p.pos with
      | none =>
          rw [hg] at h
          cases h
      | some n =>
          rw [hg] at h
          cases n with
          | zero =>
              dsimp only at h
              injection h with h2
              rw [← h2]
              exact ⟨by show p.pos < p.pos + 1; omega, rfl⟩
          | succ m =>
              dsimp only at h
              obtain ⟨h1, h2⟩ := ih _ _ h
              dsimp only at h1 h2
              exact ⟨by omega, h2⟩

theorem dname_parse_mono (p q : Parser) (h : Dname.parse p = Except.ok q) :
    p.pos < q.pos ∧ q.octets = p.octets :=
  dname_parse_fuel_mono _ p q h

/-- A successful SOA field parse consumes the primary name plus at
least 21 further bytes, the secondary name and the integer fields. -/
theorem soa_parse_fields_consumes (p : Parser) (r : Unit) (tmp : Parser)
    (h : Soa.parse_fields p = Except.ok (r, tmp)) :
    ∃ p1, Dname.parse p = Except.ok p1 ∧ p1.pos + 21 ≤ tmp.pos := by
  unfold Soa.parse_fields at h
  cases h1 : Dname.parse p with
  | error e =>
      rw [h1] at h
      cases h
  | ok p1 =>
      rw [h1] at h
      dsimp only at h
      cases h2 : Dname.parse p1 with
      | error e =>
          rw [h2] at h
          cases h
      | ok p2 =>
          rw [h2] at h
          dsimp only at h
          unfold Parser.advance at h
          by_cases h3 : p2.pos + 20 ≤ p2.octets.length
          · rw [if_pos h3] at h
            dsimp only at h
            injection h with hpair
            cases hpair
            have hm2 := dname_parse_mono p1 p2 h2
            exact ⟨p1, rfl, by show p1.pos + 21 ≤ p2.pos + 20; omega⟩
          · rw [if_neg h3] at h
            cases h

/-- Claim C9 amended: parsing SOA through parse_all with a declared
length exactly equal to the primary name's encoded length always
errors with ShortField, because the secondary name and the five 32-bit
fields make the consumed length exceed the declared one; the
seek-back-to-zero-remaining fallback described by the spec belongs to
the MINFO bounded parse, not to the SOA one. -/
theorem soa_primary_length_amended (p p1 : Parser) (r : Unit) (tmp : Parser)
    (hname : Dname.parse p = Except.ok p1)
    (hfields : Soa.parse_fields p = Except.ok (r, tmp)) :
    Soa.parse_all Soa.parse_fields p (p1.pos - p.pos) = Except.error ParseErr.shortField := by
  obtain ⟨p1b, hp1b, hb⟩ := soa_parse_fields_consumes p r tmp hfields
  rw [hname] at hp1b
  injection hp1b with hp1eq
  subst hp1eq
  have hm1 := dname_parse_mono p p1 hname
  unfold Soa.parse_all
  rw [hfields]
  dsimp only
  rw [if_neg (by omega), if_pos (by omega)]

/-- The 22-byte SOA record data whose both names are the root name:
two zero bytes followed by the twenty bytes of the integer fields. -/
def soa_octets_ex : List Nat :=
  0 :: 0 :: List.replicate 20 0

/-- Claim C9, counterexample: on concrete record data whose primary
name is the root name of encoded length 1, parse_all with declared
length 1 errors with ShortField instead of succeeding with a root-name
secondary field. -/
theorem soa_primary_length_counterexample :
    Dname.parse ⟨soa_octets_ex, 0⟩ = Except.ok ⟨soa_octets_ex, 1⟩ ∧
    Soa.parse_all Soa.parse_fields ⟨soa_octets_ex, 0⟩ 1 = Except.error ParseErr.shortField := by
  decide

/-- The same 22-byte shape with nonzero integer fields, used for the
amended witness. -/
def soa_octets_ex2 : List Nat :=
  0 :: 0 :: List.replicate 20 7

/-- Witness for C9 amended at a concrete input. -/
theorem soa_primary_length_amended_witness :
    Soa.parse_all Soa.parse_fields ⟨soa_octets_ex2, 0⟩ 1 = Except.error ParseErr.shortField :=
  soa_primary_length_amended ⟨soa_octets_ex2, 0⟩ ⟨soa_octets_ex2, 1⟩ () ⟨soa_octets_ex2, 22⟩
    (by decide) (by decide)

end DomainCore
